import Mathlib

/-!
Shallow embedding of the interpolation core of `interpolate-slow.py`
(BEM-Helper).  Machine floats are modelled by exact rationals; a
possibly-NaN float is `Option ℚ` with `none` standing for NaN, and a
computation that can raise (an out-of-bounds `np.take`, a shape mismatch
in `np.einsum`) returns `Option` with `none` for the raised error.

The scipy/qhull Delaunay object built by `construct_vertices` is external
library state; it is modelled by the `Triangulation` structure carrying
exactly the three pieces the source reads from it: `tri.simplices`,
`tri.transform` (per-simplex affine transform: rows 0..1 a 2x2 matrix,
row 2 a translation), and `tri.find_simplex` (returns the index of the
enclosing simplex, or -1 for a point outside the convex hull).  Likewise
`scipy.interpolate.griddata` in `interpolate_BC` is an external call and
is a function parameter of the embedding.
-/

namespace BEMHelper

/-- NaN-aware addition on the float model `Option ℚ` (`none` = NaN):
the sum is NaN whenever either operand is. -/
def naAdd : Option ℚ → Option ℚ → Option ℚ
  | some a, some b => some (a + b)
  | _, _ => none

/-- NaN-aware multiplication of a finite scalar with a float model value. -/
def naMul (w : ℚ) : Option ℚ → Option ℚ
  | some a => some (w * a)
  | none => none

/-- `np.take(l, i, axis=0)` with the default raise mode: a negative
index `i` with `-len ≤ i` wraps from the end (numpy follows Python
indexing), any other out-of-range index raises (modelled `none`). -/
def npTake {α : Type} (l : List α) (i : ℤ) : Option α :=
  if 0 ≤ i then l[i.toNat]?
  else if -(l.length : ℤ) ≤ i then l[((l.length : ℤ) + i).toNat]?
  else none

/-- One row of `tri.transform`: rows 0..1 form the 2x2 matrix taking a
Cartesian offset to the first two barycentric coordinates, row 2 is the
translation (the last vertex of the simplex). -/
structure SimplexTransform where
  m00 : ℚ
  m01 : ℚ
  m10 : ℚ
  m11 : ℚ
  t0 : ℚ
  t1 : ℚ
deriving DecidableEq

/-- A 2-D query or mesh point. -/
abbrev Point := ℚ × ℚ

/-- A triple of vertex indices of one triangle (`tri.simplices` row). -/
abbrev VertexTriple := ℕ × ℕ × ℕ

/-- A triple of barycentric interpolation weights. -/
abbrev WeightTriple := ℚ × ℚ × ℚ

/-- The data `construct_vertices` reads off the external qhull Delaunay
object: simplex vertex rows, per-simplex affine transforms, and the
point locator `find_simplex` (index of enclosing simplex, -1 outside
the convex hull). -/
structure Triangulation where
  simplices : List VertexTriple
  transform : List SimplexTransform
  findSimplex : Point → ℤ

/-- Lines 268-270 of the source for one query point `q` and one transform
row `temp`: `delta = uv - temp[:, 2]`,
`bary = np.einsum(njk,nk->nj; temp[:, :2, :], delta)`, and the third
weight appended by `np.hstack((bary, 1 - bary.sum(axis=1, keepdims=True)))`. -/
def baryWeights (tr : SimplexTransform) (q : Point) : WeightTriple :=
  let d0 := q.1 - tr.t0
  let d1 := q.2 - tr.t1
  let b0 := tr.m00 * d0 + tr.m01 * d1
  let b1 := tr.m10 * d0 + tr.m11 * d1
  (b0, b1, 1 - (b0 + b1))

/-- Per-query body of `construct_vertices`: `simplex = tri.find_simplex(uv)`,
`vertices = np.take(tri.simplices, simplex, axis=0)`,
`temp = np.take(tri.transform, simplex, axis=0)`, then the weights. -/
def constructOne (T : Triangulation) (q : Point) :
    Option (VertexTriple × WeightTriple) :=
  match npTake T.simplices (T.findSimplex q), npTake T.transform (T.findSimplex q) with
  | some v, some tr => some (v, baryWeights tr q)
  | _, _ => none

/-- Vectorised loop of `construct_vertices` over the query points. -/
def constructGo (T : Triangulation) : List Point →
    Option (List (VertexTriple × WeightTriple))
  | [] => some []
  | q :: qs =>
    match constructOne T q, constructGo T qs with
    | some p, some ps => some (p :: ps)
    | _, _ => none

/-- `construct_vertices(xy, uv)` (source lines 255-270), with the
external `qhull.Delaunay(xy)` object passed in as `T`.  Returns the
parallel arrays `(vertices, weights)` of the PrecomputedMap. -/
def construct_vertices (T : Triangulation) (uv : List Point) :
    Option (List VertexTriple × List WeightTriple) :=
  (constructGo T uv).map List.unzip

/-- One output component of `np.einsum(nj,nj->n; np.take(values, vertices),
weights)`: the three field lookups (raising when out of bounds) combined
with the weight triple. -/
def interpOne (values : List (Option ℚ)) (v : VertexTriple) (w : WeightTriple) :
    Option (Option ℚ) :=
  match values[v.1]?, values[v.2.1]?, values[v.2.2]? with
  | some f0, some f1, some f2 =>
    some (naAdd (naAdd (naMul w.1 f0) (naMul w.2.1 f1)) (naMul w.2.2 f2))
  | _, _, _ => none

/-- The batched einsum over the parallel `vertices`/`weights` arrays; a
length mismatch between the two is an einsum shape error (`none`). -/
def fastInterpGo (values : List (Option ℚ)) :
    List VertexTriple → List WeightTriple → Option (List (Option ℚ))
  | [], [] => some []
  | v :: vs, w :: ws =>
    match interpOne values v w, fastInterpGo values vs ws with
    | some r, some rs => some (r :: rs)
    | _, _ => none
  | _, _ => none

/-- `fast_interpolate(values, vertices, weights)` (source lines 272-280):
`np.einsum(nj,nj->n; np.take(values, vertices), weights)`. -/
def fast_interpolate (values : List (Option ℚ)) (vertices : List VertexTriple)
    (weights : List WeightTriple) : Option (List (Option ℚ)) :=
  fastInterpGo values vertices weights

/-- The precompute-then-evaluate fast path: `construct_vertices` followed
by `fast_interpolate` on the resulting PrecomputedMap. -/
def fastPath (T : Triangulation) (uv : List Point) (values : List (Option ℚ)) :
    Option (List (Option ℚ)) :=
  match construct_vertices T uv with
  | some p => fast_interpolate values p.1 p.2
  | none => none

/-- `np.min` of a nonempty array (the `[]` case is never reached under the
nonemptiness hypotheses of the theorems below). -/
def npMin : List ℚ → ℚ
  | [] => 0
  | x :: xs => xs.foldl min x

/-- `np.max` of a nonempty array. -/
def npMax : List ℚ → ℚ
  | [] => 0
  | x :: xs => xs.foldl max x

/-- The external `scipy.interpolate.griddata(points, values, query, method)`
call: points, node values, query point, method string; its float result
may be NaN (`none`). -/
abbrev GriddataFn := List (ℚ × ℚ) → List ℚ → Point → String → Option ℚ

/-- `interpolate_BC(xdata, ydata, Udata, xeval, yeval, method)` (source
lines 142-161): the bounding-box short-circuit around the external
`griddata` call, returning `nan` (`none`) outside the box. -/
def interpolate_BC (griddata : GriddataFn) (xdata ydata Udata : List ℚ)
    (xeval yeval : ℚ) (method : String) : Option ℚ :=
  if npMin xdata ≤ xeval ∧ xeval ≤ npMax xdata then
    if npMin ydata ≤ yeval ∧ yeval ≤ npMax ydata then
      griddata (xdata.zip ydata) Udata (xeval, yeval) method
    else none
  else none

/-- A deduplication key: the complex number `x + i*y` of source line 134,
as its (real, imaginary) parts. -/
abbrev CKey := ℚ × ℚ

/-- The numpy sort order on complex values: lexicographic on (real, imag). -/
def ckeyLt (a b : CKey) : Prop :=
  a.1 < b.1 ∨ (a.1 = b.1 ∧ a.2 < b.2)

instance : DecidableRel ckeyLt := fun a b => by
  unfold ckeyLt; infer_instance

/-- Total order on (key, first-occurrence index) pairs used to model the
stable sort inside `np.unique`: keys first, original index as tie-break. -/
def pkeyLe (p q : CKey × ℕ) : Prop :=
  ckeyLt p.1 q.1 ∨ (p.1 = q.1 ∧ p.2 ≤ q.2)

instance : DecidableRel pkeyLe := fun p q => by
  unfold pkeyLe; infer_instance

instance : IsTotal (CKey × ℕ) pkeyLe := by
  constructor
  intro p q
  rcases lt_trichotomy p.1.1 q.1.1 with h | h | h
  · exact Or.inl (Or.inl (Or.inl h))
  · rcases lt_trichotomy p.1.2 q.1.2 with h2 | h2 | h2
    · exact Or.inl (Or.inl (Or.inr ⟨h, h2⟩))
    · rcases Nat.le_total p.2 q.2 with h3 | h3
      · exact Or.inl (Or.inr ⟨Prod.ext h h2, h3⟩)
      · exact Or.inr (Or.inr ⟨(Prod.ext h h2).symm, h3⟩)
    · exact Or.inr (Or.inl (Or.inr ⟨h.symm, h2⟩))
  · exact Or.inr (Or.inl (Or.inl h))

instance : IsTrans (CKey × ℕ) pkeyLe := by
  constructor
  rintro p q r (hpq | ⟨hpq, hpq2⟩) (hqr | ⟨hqr, hqr2⟩)
  · rcases hpq with h1 | ⟨h1, h2⟩ <;> rcases hqr with h3 | ⟨h3, h4⟩
    · exact Or.inl (Or.inl (h1.trans h3))
    · exact Or.inl (Or.inl (h3 ▸ h1))
    · exact Or.inl (Or.inl (h1 ▸ h3))
    · exact Or.inl (Or.inr ⟨h1.trans h3, h2.trans h4⟩)
  · exact Or.inl (hqr ▸ hpq)
  · exact Or.inl (hpq ▸ hqr)
  · exact Or.inr ⟨hpq.trans hqr, hpq2.trans hqr2⟩

/-- First pass of `np.unique(..., return_index=True)`: scan the key array
left to right, recording each key the first time it is seen, together
with its index in the original array. -/
def firstOccAux : ℕ → List CKey → List CKey → List (CKey × ℕ)
  | _, [], _ => []
  | n, k :: ks, seen =>
    if k ∈ seen then firstOccAux (n + 1) ks seen
    else (k, n) :: firstOccAux (n + 1) ks (k :: seen)

/-- `np.unique((x + 1j*y).flatten(), return_index=True)` (source line 134):
the unique keys in increasing complex sort order, each paired with the
index of its first occurrence in the flattened input. -/
def npUnique (ks : List CKey) : List (CKey × ℕ) :=
  List.insertionSort pkeyLe (firstOccAux 0 ks [])

/-- Numpy fancy indexing `l[idx]` with raise-mode semantics on
nonnegative indices. -/
def fancyIndex (l : List ℚ) : List ℕ → Option (List ℚ)
  | [] => some []
  | i :: is =>
    match l[i]?, fancyIndex l is with
    | some v, some vs => some (v :: vs)
    | _, _ => none

/-- The deduplication step of `prepare_for_interpolation` (source lines
133-140): unique complex keys of `(x, y)` with first-occurrence indices,
then fancy-indexing `x`, `y` and the value array by those indices. -/
def dedupPoints (x y U : List ℚ) : Option (List ℚ × List ℚ × List ℚ) :=
  match fancyIndex x ((npUnique (x.zip y)).map Prod.snd),
        fancyIndex y ((npUnique (x.zip y)).map Prod.snd),
        fancyIndex U ((npUnique (x.zip y)).map Prod.snd) with
  | some xu, some yu, some Uu => some (xu, yu, Uu)
  | _, _, _ => none

/-- The weight formula as the spec words it (section 4.4): `delta = query −
transform_translation; (w0, w1) = transform_matrix · delta`, then
`w2 = 1 − w0 − w1`; stated independently of the source to compare the
two. -/
def specBarycentricWeights (tr : SimplexTransform) (q : Point) : WeightTriple :=
  let w0 := tr.m00 * (q.1 - tr.t0) + tr.m01 * (q.2 - tr.t1)
  let w1 := tr.m10 * (q.1 - tr.t0) + tr.m11 * (q.2 - tr.t1)
  (w0, w1, 1 - w0 - w1)

/-- The qhull transform of the single triangle (0,0), (1,0), (0,1): the
translation is the last vertex (0,1) and the matrix is the inverse of
the edge matrix with columns v0 - v2 and v1 - v2. -/
def exTransform : SimplexTransform :=
  { m00 := -1, m01 := -1, m10 := 1, m11 := 0, t0 := 0, t1 := 1 }

/-- A concrete one-triangle triangulation over the three source points
(0,0), (1,0), (0,1); its locator returns 0 when all three barycentric
coordinates are nonnegative (the point is in the triangle, hence in the
hull) and the outside sentinel -1 otherwise. -/
def exTri : Triangulation :=
  { simplices := [(0, 1, 2)]
    transform := [exTransform]
    findSimplex := fun q =>
      let w := baryWeights exTransform q
      if 0 ≤ w.1 ∧ 0 ≤ w.2.1 ∧ 0 ≤ w.2.2 then 0 else -1 }

/-! ### Generic helper lemmas -/

theorem getD_of_lt {α : Type} (l : List α) (i : ℕ) (d : α) (h : i < l.length) :
    l.getD i d = l[i] := by
  rw [List.getD_eq_getElem?_getD, List.getElem?_eq_getElem h, Option.getD_some]

/-! ### Lemmas about the weight builder and `construct_vertices` -/

theorem baryWeights_sum (tr : SimplexTransform) (q : Point) :
    (baryWeights tr q).1 + (baryWeights tr q).2.1 + (baryWeights tr q).2.2 = 1 := by
  unfold baryWeights
  ring

theorem baryWeights_eq_spec (tr : SimplexTransform) (q : Point) :
    baryWeights tr q = specBarycentricWeights tr q := by
  unfold baryWeights specBarycentricWeights
  refine Prod.ext rfl (Prod.ext rfl ?_)
  ring

theorem constructOne_some {T : Triangulation} {q : Point}
    {p : VertexTriple × WeightTriple} (h : constructOne T q = some p) :
    ∃ tr, npTake T.simplices (T.findSimplex q) = some p.1 ∧
      npTake T.transform (T.findSimplex q) = some tr ∧ p.2 = baryWeights tr q := by
  unfold constructOne at h
  cases h1 : npTake T.simplices (T.findSimplex q) <;> rw [h1] at h
  · exact absurd h (by simp)
  cases h2 : npTake T.transform (T.findSimplex q) <;> rw [h2] at h
  · exact absurd h (by simp)
  rename_i v tr
  have hp : (v, baryWeights tr q) = p := Option.some.inj h
  refine ⟨tr, ?_, rfl, ?_⟩
  · rw [← hp]
  · rw [← hp]

theorem constructGo_get (T : Triangulation) :
    ∀ (uv : List Point) (ps : List (VertexTriple × WeightTriple)),
      constructGo T uv = some ps →
      ps.length = uv.length ∧
        ∀ i, i < uv.length →
          constructOne T (uv.getD i (0, 0)) =
            some (ps.getD i ((0, 0, 0), (0, 0, 0))) := by
  intro uv
  induction uv with
  | nil =>
    intro ps h
    unfold constructGo at h
    obtain rfl := (Option.some.inj h).symm
    exact ⟨rfl, fun i hi => absurd hi (by simp)⟩
  | cons q qs ih =>
    intro ps h
    unfold constructGo at h
    cases h1 : constructOne T q <;> rw [h1] at h
    · exact absurd h (by simp)
    cases h2 : constructGo T qs <;> rw [h2] at h
    · exact absurd h (by simp)
    obtain rfl := (Option.some.inj h).symm
    obtain ⟨hlen, hidx⟩ := ih _ h2
    refine ⟨by simp [hlen], ?_⟩
    intro i hi
    cases i with
    | zero => simpa using h1
    | succ j =>
      simp only [List.getD_cons_succ]
      exact hidx j (by simpa using hi)

theorem construct_vertices_parts {T : Triangulation} {uv : List Point}
    {vs : List VertexTriple} {ws : List WeightTriple}
    (h : construct_vertices T uv = some (vs, ws)) :
    ∃ ps, constructGo T uv = some ps ∧ vs = ps.map Prod.fst ∧ ws = ps.map Prod.snd := by
  unfold construct_vertices at h
  cases hg : constructGo T uv <;> rw [hg] at h
  · exact absurd h (by simp)
  rename_i ps
  have hp : ps.unzip = (vs, ws) := Option.some.inj h
  refine ⟨ps, rfl, ?_, ?_⟩
  · rw [← List.unzip_fst, hp]
  · rw [← List.unzip_snd, hp]

/-- Claim C3: for every located query point, the weight triple stored by
`construct_vertices` is exactly the spec formula `delta = query − translation`,
`(w0, w1) = matrix · delta`, `w2 = 1 − w0 − w1` applied to the enclosing
precomputed affine transform of the enclosing triangle, with no clamping
of the result. -/
theorem C3_weight_formula (T : Triangulation) (uv : List Point)
    (vs : List VertexTriple) (ws : List WeightTriple)
    (h : construct_vertices T uv = some (vs, ws)) :
    ∀ i, i < uv.length →
      ∃ tr, npTake T.transform (T.findSimplex (uv.getD i (0, 0))) = some tr ∧
        ws.getD i (0, 0, 0) = specBarycentricWeights tr (uv.getD i (0, 0)) := by
  intro i hi
  obtain ⟨ps, hg, hvs, hws⟩ := construct_vertices_parts h
  obtain ⟨hlen, hidx⟩ := constructGo_get T uv ps hg
  obtain ⟨tr, hv, htr, hw⟩ := constructOne_some (hidx i hi)
  refine ⟨tr, htr, ?_⟩
  have hilt : i < ws.length := by rw [hws, List.length_map, hlen]; exact hi
  have hips : i < ps.length := by rw [hlen]; exact hi
  rw [getD_of_lt _ _ _ hilt]
  have : ws[i] = (ps.getD i ((0, 0, 0), (0, 0, 0))).2 := by
    rw [getD_of_lt _ _ _ hips]
    subst hws
    simp
  rw [this, hw, baryWeights_eq_spec]

/-- Witness for C3 at the concrete one-triangle triangulation and the query
(5, 5): the stored weights are the unclamped formula output (-9, 5, 5),
negative entries included. -/
theorem C3_weight_formula_witness :
    ∃ tr, npTake exTri.transform
        (exTri.findSimplex (([((5 : ℚ), (5 : ℚ))]).getD 0 (0, 0))) = some tr ∧
      ([((-9 : ℚ), (5 : ℚ), (5 : ℚ))]).getD 0 (0, 0, 0) =
        specBarycentricWeights tr (([((5 : ℚ), (5 : ℚ))]).getD 0 (0, 0)) :=
  C3_weight_formula exTri [(5, 5)] [(0, 1, 2)] [(-9, 5, 5)]
    (by with_unfolding_all rfl) 0 (by simp)

/-- Claim C4: every weight triple produced by `construct_vertices` sums to 1
(exactly, in the rational model), for an arbitrary triangulation; in
particular this holds for every located query point enclosed by a triangle. -/
theorem C4_partition_of_unity (T : Triangulation) (uv : List Point)
    (vs : List VertexTriple) (ws : List WeightTriple)
    (h : construct_vertices T uv = some (vs, ws)) :
    ∀ w ∈ ws, w.1 + w.2.1 + w.2.2 = 1 := by
  intro w hw
  obtain ⟨ps, hg, hvs, hws⟩ := construct_vertices_parts h
  obtain ⟨hlen, hidx⟩ := constructGo_get T uv ps hg
  subst hws
  obtain ⟨p, hp, rfl⟩ := List.mem_map.mp hw
  obtain ⟨i, hilt, rfl⟩ := List.mem_iff_getElem.mp hp
  have hi : i < uv.length := by rw [← hlen]; exact hilt
  have := constructOne_some (hidx i hi)
  obtain ⟨tr, hv, htr, hweq⟩ := this
  rw [getD_of_lt _ _ _ hilt] at hweq
  rw [hweq]
  exact baryWeights_sum tr _

/-- Witness for C4: the weights of the inside query (1/4, 1/4) in the
concrete one-triangle triangulation sum to 1. -/
theorem C4_partition_of_unity_witness :
    ((1 : ℚ)/2, (1 : ℚ)/4, (1 : ℚ)/4).1 + ((1 : ℚ)/2, (1 : ℚ)/4, (1 : ℚ)/4).2.1 +
      ((1 : ℚ)/2, (1 : ℚ)/4, (1 : ℚ)/4).2.2 = 1 :=
  C4_partition_of_unity exTri [(1/4, 1/4)] [(0, 1, 2)] [(1/2, 1/4, 1/4)]
    (by with_unfolding_all rfl) (1/2, 1/4, 1/4) (List.mem_singleton.mpr rfl)

/-- Claim C6: `interpolate_BC` returns not-a-number without invoking the
scattered-data interpolation whenever the query lies outside the bounding
range of the source data on either axis (the result is `none` for every
possible `griddata`), and otherwise delegates to `griddata` with the
selected interpolation mode. -/
theorem C6_interpolate_BC_bbox (g : GriddataFn) (xdata ydata Udata : List ℚ)
    (xeval yeval : ℚ) (method : String) :
    ((xeval < npMin xdata ∨ npMax xdata < xeval ∨
        yeval < npMin ydata ∨ npMax ydata < yeval) →
      ∀ g2 : GriddataFn, interpolate_BC g2 xdata ydata Udata xeval yeval method = none) ∧
    ((npMin xdata ≤ xeval ∧ xeval ≤ npMax xdata ∧
        npMin ydata ≤ yeval ∧ yeval ≤ npMax ydata) →
      interpolate_BC g xdata ydata Udata xeval yeval method =
        g (xdata.zip ydata) Udata (xeval, yeval) method) := by
  constructor
  · intro hout g2
    unfold interpolate_BC
    rcases hout with h | h | h | h
    · rw [if_neg (fun hc => absurd hc.1 (not_le.mpr h))]
    · rw [if_neg (fun hc => absurd hc.2 (not_le.mpr h))]
    · by_cases h1 : npMin xdata ≤ xeval ∧ xeval ≤ npMax xdata
      · rw [if_pos h1, if_neg (fun hc => absurd hc.1 (not_le.mpr h))]
      · rw [if_neg h1]
    · by_cases h1 : npMin xdata ≤ xeval ∧ xeval ≤ npMax xdata
      · rw [if_pos h1, if_neg (fun hc => absurd hc.2 (not_le.mpr h))]
      · rw [if_neg h1]
  · rintro ⟨h1, h2, h3, h4⟩
    unfold interpolate_BC
    rw [if_pos ⟨h1, h2⟩, if_pos ⟨h3, h4⟩]

/-- Witness for C6: with source x- and y-ranges [0, 1], the query (2, 0)
is rejected as `none` for an arbitrary `griddata`, and the inside query
(1/2, 1/2) is delegated to `griddata` (here the constant 42 stub). -/
theorem C6_interpolate_BC_bbox_witness :
    (interpolate_BC (fun _ _ _ _ => some 42) [0, 1] [0, 1] [1, 2] 2 0 "cubic" = none) ∧
    (interpolate_BC (fun _ _ _ _ => some 42) [0, 1] [0, 1] [1, 2] (1/2) (1/2) "cubic" =
      some 42) := by
  constructor
  · exact (C6_interpolate_BC_bbox (fun _ _ _ _ => some 42) [0, 1] [0, 1] [1, 2]
      2 0 "cubic").1 (by norm_num [npMin, npMax]) _
  · exact (C6_interpolate_BC_bbox (fun _ _ _ _ => some 42) [0, 1] [0, 1] [1, 2]
      (1/2) (1/2) "cubic").2 (by norm_num [npMin, npMax])

/-! ### Lemmas about `fast_interpolate` -/

theorem getElem?_map_some (field : List ℚ) (i : ℕ) (hi : i < field.length) :
    (field.map some)[i]? = some (some (field.getD i 0)) := by
  rw [List.getElem?_map, List.getElem?_eq_getElem hi, getD_of_lt _ _ _ hi]
  rfl

theorem interpOne_inv {values : List (Option ℚ)} {v : VertexTriple}
    {w : WeightTriple} {r : Option ℚ} (h : interpOne values v w = some r) :
    ∃ f0 f1 f2, values[v.1]? = some f0 ∧ values[v.2.1]? = some f1 ∧
      values[v.2.2]? = some f2 ∧
      r = naAdd (naAdd (naMul w.1 f0) (naMul w.2.1 f1)) (naMul w.2.2 f2) := by
  unfold interpOne at h
  cases h0 : values[v.1]? <;> rw [h0] at h
  · exact absurd h (by simp)
  cases h1 : values[v.2.1]? <;> rw [h1] at h
  · exact absurd h (by simp)
  cases h2 : values[v.2.2]? <;> rw [h2] at h
  · exact absurd h (by simp)
  exact ⟨_, _, _, rfl, rfl, rfl, (Option.some.inj h).symm⟩

theorem interpOne_of_lookups {values : List (Option ℚ)} {v : VertexTriple}
    {w : WeightTriple} {f0 f1 f2 : Option ℚ} (h0 : values[v.1]? = some f0)
    (h1 : values[v.2.1]? = some f1) (h2 : values[v.2.2]? = some f2) :
    interpOne values v w =
      some (naAdd (naAdd (naMul w.1 f0) (naMul w.2.1 f1)) (naMul w.2.2 f2)) := by
  unfold interpOne
  rw [h0, h1, h2]

theorem fastInterpGo_cons_inv {values : List (Option ℚ)} {v : VertexTriple}
    {vs : List VertexTriple} {w : WeightTriple} {ws : List WeightTriple}
    {rs : List (Option ℚ)}
    (h : fastInterpGo values (v :: vs) (w :: ws) = some rs) :
    ∃ r0 rtl, interpOne values v w = some r0 ∧
      fastInterpGo values vs ws = some rtl ∧ rs = r0 :: rtl := by
  unfold fastInterpGo at h
  cases h0 : interpOne values v w <;> rw [h0] at h
  · exact absurd h (by simp)
  cases h1 : fastInterpGo values vs ws <;> rw [h1] at h
  · exact absurd h (by simp)
  exact ⟨_, _, rfl, rfl, (Option.some.inj h).symm⟩

/-- Claim C2: for index triples in bounds, `fast_interpolate` succeeds with
exactly one output per query, and output `q` is the weighted sum
`sum over j of weights[q][j] * field[vertices[q][j]]`. -/
theorem C2_fast_interpolate_formula (field : List ℚ) (vertices : List VertexTriple)
    (weights : List WeightTriple) (hlen : vertices.length = weights.length)
    (hidx : ∀ v ∈ vertices,
      v.1 < field.length ∧ v.2.1 < field.length ∧ v.2.2 < field.length) :
    ∃ out : List ℚ,
      fast_interpolate (field.map some) vertices weights = some (out.map some) ∧
      out.length = vertices.length ∧
      ∀ q, q < vertices.length →
        out.getD q 0 =
          (weights.getD q (0, 0, 0)).1 * field.getD (vertices.getD q (0, 0, 0)).1 0 +
          (weights.getD q (0, 0, 0)).2.1 * field.getD (vertices.getD q (0, 0, 0)).2.1 0 +
          (weights.getD q (0, 0, 0)).2.2 * field.getD (vertices.getD q (0, 0, 0)).2.2 0 := by
  unfold fast_interpolate
  induction vertices generalizing weights with
  | nil =>
    cases weights with
    | nil => exact ⟨[], rfl, rfl, fun q hq => absurd hq (by simp)⟩
    | cons w ws => exact absurd hlen (by simp)
  | cons v vs ih =>
    cases weights with
    | nil => exact absurd hlen (by simp)
    | cons w ws =>
      have hlen2 : vs.length = ws.length := by simpa using hlen
      have hv := hidx v (List.mem_cons_self v vs)
      obtain ⟨out0, hout0, hlen0, hform0⟩ :=
        ih ws hlen2 (fun u hu => hidx u (List.mem_cons_of_mem v hu))
      refine ⟨(w.1 * field.getD v.1 0 + w.2.1 * field.getD v.2.1 0 +
        w.2.2 * field.getD v.2.2 0) :: out0, ?_, by simpa using hlen0, ?_⟩
      · unfold fastInterpGo
        rw [interpOne_of_lookups (getElem?_map_some field v.1 hv.1)
          (getElem?_map_some field v.2.1 hv.2.1) (getElem?_map_some field v.2.2 hv.2.2),
          hout0]
        simp [naAdd, naMul]
      · intro q hq
        cases q with
        | zero => simp
        | succ j =>
          simp only [List.getD_cons_succ]
          exact hform0 j (by simpa using hq)

/-- Witness for C2 at a concrete one-triangle PrecomputedMap and the field
(1, 2, 3). -/
theorem C2_fast_interpolate_formula_witness :
    ∃ out : List ℚ,
      fast_interpolate (([1, 2, 3] : List ℚ).map some) [(0, 1, 2)]
          [(1/2, 1/4, 1/4)] = some (out.map some) ∧
      out.length = [((0 : ℕ), (1 : ℕ), (2 : ℕ))].length ∧
      ∀ q, q < [((0 : ℕ), (1 : ℕ), (2 : ℕ))].length →
        out.getD q 0 =
          (([((1 : ℚ)/2, (1 : ℚ)/4, (1 : ℚ)/4)]).getD q (0, 0, 0)).1 *
            (([1, 2, 3] : List ℚ)).getD (([((0 : ℕ), (1 : ℕ), (2 : ℕ))]).getD q (0, 0, 0)).1 0 +
          (([((1 : ℚ)/2, (1 : ℚ)/4, (1 : ℚ)/4)]).getD q (0, 0, 0)).2.1 *
            (([1, 2, 3] : List ℚ)).getD (([((0 : ℕ), (1 : ℕ), (2 : ℕ))]).getD q (0, 0, 0)).2.1 0 +
          (([((1 : ℚ)/2, (1 : ℚ)/4, (1 : ℚ)/4)]).getD q (0, 0, 0)).2.2 *
            (([1, 2, 3] : List ℚ)).getD (([((0 : ℕ), (1 : ℕ), (2 : ℕ))]).getD q (0, 0, 0)).2.2 0 :=
  C2_fast_interpolate_formula [1, 2, 3] [(0, 1, 2)] [(1/2, 1/4, 1/4)] rfl
    (by intro v hv; simp at hv; subst hv; exact ⟨by simp, by simp, by simp⟩)

/-- NaN-aware distribution law underlying the linearity of the fast
evaluator: evaluating one query against the elementwise sum of two fields
equals the NaN-aware sum of the two evaluations. -/
theorem naLinear (w1 w2 w3 : ℚ) (x0 x1 x2 y0 y1 y2 : Option ℚ) :
    naAdd (naAdd (naMul w1 (naAdd x0 y0)) (naMul w2 (naAdd x1 y1)))
        (naMul w3 (naAdd x2 y2)) =
      naAdd (naAdd (naAdd (naMul w1 x0) (naMul w2 x1)) (naMul w3 x2))
        (naAdd (naAdd (naMul w1 y0) (naMul w2 y1)) (naMul w3 y2)) := by
  cases x0 <;> cases x1 <;> cases x2 <;> cases y0 <;> cases y1 <;> cases y2 <;>
    simp [naAdd, naMul] <;> ring

theorem zip_lookup {a b : List (Option ℚ)} {i : ℕ} {fa fb : Option ℚ}
    (ha : a[i]? = some fa) (hb : b[i]? = some fb) :
    (List.zipWith naAdd a b)[i]? = some (naAdd fa fb) := by
  rw [List.getElem?_zipWith, ha, hb]

theorem interpOne_zip {a b : List (Option ℚ)} {v : VertexTriple}
    {w : WeightTriple} {ra rb : Option ℚ}
    (ha : interpOne a v w = some ra) (hb : interpOne b v w = some rb) :
    interpOne (List.zipWith naAdd a b) v w = some (naAdd ra rb) := by
  obtain ⟨fa0, fa1, fa2, ha0, ha1, ha2, hra⟩ := interpOne_inv ha
  obtain ⟨fb0, fb1, fb2, hb0, hb1, hb2, hrb⟩ := interpOne_inv hb
  rw [interpOne_of_lookups (zip_lookup ha0 hb0) (zip_lookup ha1 hb1)
    (zip_lookup ha2 hb2), hra, hrb, naLinear]

/-- Claim C5: for a fixed PrecomputedMap, evaluating the elementwise sum of
two FieldVectors of equal length equals the elementwise sum of the two
separate evaluations. -/
theorem C5_linearity (a b : List (Option ℚ)) (vertices : List VertexTriple)
    (weights : List WeightTriple) (ra rb : List (Option ℚ))
    (hab : a.length = b.length)
    (ha : fast_interpolate a vertices weights = some ra)
    (hb : fast_interpolate b vertices weights = some rb) :
    fast_interpolate (List.zipWith naAdd a b) vertices weights =
      some (List.zipWith naAdd ra rb) := by
  unfold fast_interpolate at ha hb ⊢
  induction vertices generalizing weights ra rb with
  | nil =>
    cases weights with
    | nil =>
      obtain rfl : [] = ra := Option.some.inj ha
      obtain rfl : [] = rb := Option.some.inj hb
      rfl
    | cons w ws => exact absurd ha (by simp [fastInterpGo])
  | cons v vs ih =>
    cases weights with
    | nil => exact absurd ha (by simp [fastInterpGo])
    | cons w ws =>
      obtain ⟨r0a, rsa, h0a, h1a, rfl⟩ := fastInterpGo_cons_inv ha
      obtain ⟨r0b, rsb, h0b, h1b, rfl⟩ := fastInterpGo_cons_inv hb
      unfold fastInterpGo
      rw [interpOne_zip h0a h0b, ih ws rsa rsb h1a h1b]
      rfl

/-- Witness for C5 with two concrete fields over the one-triangle map. -/
theorem C5_linearity_witness :
    fast_interpolate
        (List.zipWith naAdd [some 1, some 2, some 3] [some 10, some 20, some 30])
        [(0, 1, 2)] [(1/2, 1/4, 1/4)] =
      some (List.zipWith naAdd [some (7/4)] [some (35/2)]) :=
  C5_linearity [some 1, some 2, some 3] [some 10, some 20, some 30] [(0, 1, 2)]
    [(1/2, 1/4, 1/4)] [some (7/4)] [some (35/2)] rfl
    (by with_unfolding_all rfl) (by with_unfolding_all rfl)

/-! ### Error behaviour of `fast_interpolate` (claim C7) -/

theorem interpOne_none_iff (values : List (Option ℚ)) (v : VertexTriple)
    (w : WeightTriple) :
    interpOne values v w = none ↔
      values.length ≤ v.1 ∨ values.length ≤ v.2.1 ∨ values.length ≤ v.2.2 := by
  unfold interpOne
  cases h0 : values[v.1]? with
  | none =>
    rw [List.getElem?_eq_none_iff] at h0
    simp [h0]
  | some f0 =>
    have b0 : ¬ values.length ≤ v.1 :=
      Nat.not_le.mpr (List.getElem?_eq_some_iff.mp h0).1
    cases h1 : values[v.2.1]? with
    | none =>
      rw [List.getElem?_eq_none_iff] at h1
      simp [h1]
    | some f1 =>
      have b1 : ¬ values.length ≤ v.2.1 :=
        Nat.not_le.mpr (List.getElem?_eq_some_iff.mp h1).1
      cases h2 : values[v.2.2]? with
      | none =>
        rw [List.getElem?_eq_none_iff] at h2
        simp [h2]
      | some f2 =>
        have b2 : ¬ values.length ≤ v.2.2 :=
          Nat.not_le.mpr (List.getElem?_eq_some_iff.mp h2).1
        simp [b0, b1, b2]

/-- Claim C7 (amended): for parallel `vertices`/`weights` arrays,
`fast_interpolate` raises (returns `none`) exactly when some referenced
vertex index is out of bounds for the FieldVector; a length disagreement
with the source point count that leaves every referenced index in bounds
is not detected and silently produces output. -/
theorem C7_amended_index_error (values : List (Option ℚ))
    (vertices : List VertexTriple) (weights : List WeightTriple)
    (hlen : vertices.length = weights.length) :
    fast_interpolate values vertices weights = none ↔
      ∃ v ∈ vertices,
        values.length ≤ v.1 ∨ values.length ≤ v.2.1 ∨ values.length ≤ v.2.2 := by
  unfold fast_interpolate
  induction vertices generalizing weights with
  | nil =>
    cases weights with
    | nil => simp [fastInterpGo]
    | cons w ws => exact absurd hlen (by simp)
  | cons v vs ih =>
    cases weights with
    | nil => exact absurd hlen (by simp)
    | cons w ws =>
      have hlen2 : vs.length = ws.length := by simpa using hlen
      unfold fastInterpGo
      cases h0 : interpOne values v w with
      | none =>
        constructor
        · intro _
          exact ⟨v, List.mem_cons_self v vs, (interpOne_none_iff values v w).mp h0⟩
        · intro _
          cases fastInterpGo values vs ws <;> rfl
      | some r0 =>
        cases h1 : fastInterpGo values vs ws with
        | none =>
          constructor
          · intro _
            obtain ⟨u, hu, hb⟩ := (ih ws hlen2).mp h1
            exact ⟨u, List.mem_cons_of_mem v hu, hb⟩
          · intro _
            rfl
        | some rs =>
          constructor
          · intro hc
            exact absurd hc (by simp)
          · rintro ⟨u, hu, hb⟩
            rcases List.mem_cons.mp hu with rfl | hu2
            · rw [(interpOne_none_iff values u w).mpr hb] at h0
              exact absurd h0 (by simp)
            · rw [(ih ws hlen2).mpr ⟨u, hu2, hb⟩] at h1
              exact absurd h1 (by simp)

/-- Witness for the amended C7: with a 2-entry FieldVector, the map
referencing index 2 is an index error, and the criterion is exactly the
out-of-bounds condition. -/
theorem C7_amended_index_error_witness :
    fast_interpolate [some 1, some 2] [(0, 1, 2)] [(1/2, 1/4, 1/4)] = none ↔
      ∃ v ∈ [((0 : ℕ), (1 : ℕ), (2 : ℕ))],
        ([some (1 : ℚ), some 2]).length ≤ v.1 ∨
        ([some (1 : ℚ), some 2]).length ≤ v.2.1 ∨
        ([some (1 : ℚ), some 2]).length ≤ v.2.2 :=
  C7_amended_index_error [some 1, some 2] [(0, 1, 2)] [(1/2, 1/4, 1/4)] rfl

/-- Counterexample to C7 as stated: a 4-entry FieldVector disagrees with
the 3 source points the one-triangle PrecomputedMap was built from, yet
`fast_interpolate` does not fail: it silently produces the output 7/4. -/
theorem C7_counterexample :
    (4 : ℕ) ≠ 3 ∧
    fast_interpolate [some 1, some 2, some 3, some 99] [(0, 1, 2)]
        [(1/2, 1/4, 1/4)] = some [some (7/4)] :=
  ⟨by decide, by with_unfolding_all rfl⟩

/-! ### Outside-hull behaviour of the fast path (claims C1 and C9) -/

theorem npTake_neg_one {α : Type} (l : List α) (h : l ≠ []) :
    npTake l (-1) = some (l.getLast h) := by
  unfold npTake
  have hlen : 0 < l.length := List.length_pos.mpr h
  rw [if_neg (by omega), if_pos (by omega)]
  have htn : (((l.length : ℤ)) + (-1)).toNat = l.length - 1 := by omega
  rw [htn, List.getLast_eq_getElem]
  exact List.getElem?_eq_getElem (by omega)

theorem constructOne_outside (T : Triangulation) (q : Point)
    (h1 : T.simplices ≠ []) (h2 : T.transform ≠ []) (hq : T.findSimplex q = -1) :
    constructOne T q =
      some (T.simplices.getLast h1, baryWeights (T.transform.getLast h2) q) := by
  unfold constructOne
  rw [hq, npTake_neg_one T.simplices h1, npTake_neg_one T.transform h2]

theorem construct_vertices_outside_single (T : Triangulation) (q : Point)
    (h1 : T.simplices ≠ []) (h2 : T.transform ≠ []) (hq : T.findSimplex q = -1) :
    construct_vertices T [q] =
      some ([T.simplices.getLast h1], [baryWeights (T.transform.getLast h2) q]) := by
  unfold construct_vertices constructGo
  rw [constructOne_outside T q h1 h2 hq]
  rfl

theorem fastPath_outside_finite (T : Triangulation) (q : Point) (field : List ℚ)
    (h1 : T.simplices ≠ []) (h2 : T.transform ≠ []) (hq : T.findSimplex q = -1)
    (hb0 : (T.simplices.getLast h1).1 < field.length)
    (hb1 : (T.simplices.getLast h1).2.1 < field.length)
    (hb2 : (T.simplices.getLast h1).2.2 < field.length) :
    ∃ r : ℚ, fastPath T [q] (field.map some) = some [some r] := by
  set v := T.simplices.getLast h1 with hv
  set w := baryWeights (T.transform.getLast h2) q with hw
  refine ⟨w.1 * field.getD v.1 0 + w.2.1 * field.getD v.2.1 0 +
    w.2.2 * field.getD v.2.2 0, ?_⟩
  unfold fastPath
  rw [construct_vertices_outside_single T q h1 h2 hq]
  show fastInterpGo (field.map some) [v] [w] = _
  unfold fastInterpGo
  rw [interpOne_of_lookups (getElem?_map_some field v.1 hb0)
    (getElem?_map_some field v.2.1 hb1) (getElem?_map_some field v.2.2 hb2)]
  simp [naAdd, naMul, fastInterpGo]

/-- Claim C1 is false on the code: at the concrete one-triangle
triangulation over (0,0), (1,0), (0,1), the query (5, 5) is outside the
convex hull (the locator returns -1), yet the fast path outputs the
finite value 16 — not the not-a-number sentinel (`none`). -/
theorem C1_counterexample :
    exTri.findSimplex (5, 5) = -1 ∧
    fastPath exTri [(5, 5)] [some 1, some 2, some 3] = some [some 16] ∧
    some (16 : ℚ) ≠ (none : Option ℚ) :=
  ⟨by with_unfolding_all rfl, by with_unfolding_all rfl, by simp⟩

/-- Claim C1 (amended): for a query point outside the convex hull (locator
sentinel -1) the fast path does not return not-a-number; the sentinel
wraps under `np.take` to the last triangle and a finite extrapolated
value is produced for every finite FieldVector covering the indices of
that triangle. -/
theorem C1_amended_outside_finite (T : Triangulation) (q : Point) (field : List ℚ)
    (h1 : T.simplices ≠ []) (h2 : T.transform ≠ []) (hq : T.findSimplex q = -1)
    (hb0 : (T.simplices.getLast h1).1 < field.length)
    (hb1 : (T.simplices.getLast h1).2.1 < field.length)
    (hb2 : (T.simplices.getLast h1).2.2 < field.length) :
    ∃ r : ℚ, fastPath T [q] (field.map some) = some [some r] :=
  fastPath_outside_finite T q field h1 h2 hq hb0 hb1 hb2

/-- Witness for the amended C1 at the concrete triangulation and query
(5, 5). -/
theorem C1_amended_outside_finite_witness :
    ∃ r : ℚ, fastPath exTri [((5 : ℚ), (5 : ℚ))] (([1, 2, 3] : List ℚ).map some) =
      some [some r] :=
  C1_amended_outside_finite exTri (5, 5) [1, 2, 3] (by decide) (by decide)
    (by with_unfolding_all rfl) (by decide) (by decide) (by decide)

/-- Claim C9: for a query point outside the convex hull, the -1 sentinel
wraps around under the indexed take, so `construct_vertices` stores the
vertex indices of the last triangle together with weights from the affine
transform of that triangle; the weights still sum to 1, no NaN sentinel is
written, and `fast_interpolate` extrapolates a finite value. -/
theorem C9_outside_wraps_to_last (T : Triangulation) (q : Point)
    (h1 : T.simplices ≠ []) (h2 : T.transform ≠ []) (hq : T.findSimplex q = -1) :
    construct_vertices T [q] =
      some ([T.simplices.getLast h1], [baryWeights (T.transform.getLast h2) q]) ∧
    (baryWeights (T.transform.getLast h2) q).1 +
      (baryWeights (T.transform.getLast h2) q).2.1 +
      (baryWeights (T.transform.getLast h2) q).2.2 = 1 ∧
    ∀ field : List ℚ,
      (T.simplices.getLast h1).1 < field.length →
      (T.simplices.getLast h1).2.1 < field.length →
      (T.simplices.getLast h1).2.2 < field.length →
      ∃ r : ℚ, fastPath T [q] (field.map some) = some [some r] :=
  ⟨construct_vertices_outside_single T q h1 h2 hq,
   baryWeights_sum (T.transform.getLast h2) q,
   fun field hb0 hb1 hb2 => fastPath_outside_finite T q field h1 h2 hq hb0 hb1 hb2⟩

/-- Witness for C9 at the concrete triangulation and outside query (5, 5). -/
theorem C9_outside_wraps_to_last_witness :
    construct_vertices exTri [((5 : ℚ), (5 : ℚ))] =
      some ([exTri.simplices.getLast (by decide)],
        [baryWeights (exTri.transform.getLast (by decide)) (5, 5)]) ∧
    (baryWeights (exTri.transform.getLast (by decide)) ((5 : ℚ), (5 : ℚ))).1 +
      (baryWeights (exTri.transform.getLast (by decide)) ((5 : ℚ), (5 : ℚ))).2.1 +
      (baryWeights (exTri.transform.getLast (by decide)) ((5 : ℚ), (5 : ℚ))).2.2 = 1 ∧
    ∀ field : List ℚ,
      (exTri.simplices.getLast (by decide)).1 < field.length →
      (exTri.simplices.getLast (by decide)).2.1 < field.length →
      (exTri.simplices.getLast (by decide)).2.2 < field.length →
      ∃ r : ℚ, fastPath exTri [((5 : ℚ), (5 : ℚ))] (field.map some) = some [some r] :=
  C9_outside_wraps_to_last exTri (5, 5) (by decide) (by decide)
    (by with_unfolding_all rfl)

/-! ### Lemmas about the deduplication step (claims C8 and C10) -/

theorem firstOccAux_spec (rest : List CKey) :
    ∀ (pre seen : List CKey), (∀ k, k ∈ seen ↔ k ∈ pre) →
      ∀ p ∈ firstOccAux pre.length rest seen,
        (pre ++ rest)[p.2]? = some p.1 ∧
          ∀ j, j < p.2 → (pre ++ rest)[j]? ≠ some p.1 := by
  induction rest with
  | nil =>
    intro pre seen _ p hp
    simp [firstOccAux] at hp
  | cons k ks ih =>
    intro pre seen hseen p hp
    unfold firstOccAux at hp
    by_cases hk : k ∈ seen
    · rw [if_pos hk] at hp
      have hseen2 : ∀ k2, k2 ∈ seen ↔ k2 ∈ pre ++ [k] := by
        intro k2
        rw [List.mem_append, List.mem_singleton]
        constructor
        · intro h2
          exact Or.inl ((hseen k2).mp h2)
        · rintro (h2 | rfl)
          · exact (hseen k2).mpr h2
          · exact hk
      have hl : pre.length + 1 = (pre ++ [k]).length := by simp
      rw [hl] at hp
      have hres := ih (pre ++ [k]) seen hseen2 p hp
      rw [List.append_assoc, List.singleton_append] at hres
      exact hres
    · rw [if_neg hk] at hp
      rcases List.mem_cons.mp hp with rfl | hp2
      · constructor
        · rw [List.getElem?_append_right (Nat.le_refl pre.length)]
          simp
        · intro j hj hc
          rw [List.getElem?_append_left hj] at hc
          obtain ⟨hlt, heq⟩ := List.getElem?_eq_some_iff.mp hc
          have hkp : pre[j] = k := heq
          exact hk ((hseen k).mpr (hkp ▸ List.getElem_mem hlt))
      · have hseen2 : ∀ k2, k2 ∈ k :: seen ↔ k2 ∈ pre ++ [k] := by
          intro k2
          rw [List.mem_cons, List.mem_append, List.mem_singleton]
          constructor
          · rintro (rfl | h2)
            · exact Or.inr rfl
            · exact Or.inl ((hseen k2).mp h2)
          · rintro (h2 | rfl)
            · exact Or.inr ((hseen k2).mpr h2)
            · exact Or.inl rfl
        have hl : pre.length + 1 = (pre ++ [k]).length := by simp
        rw [hl] at hp2
        have hres := ih (pre ++ [k]) (k :: seen) hseen2 p hp2
        rw [List.append_assoc, List.singleton_append] at hres
        exact hres

theorem firstOccAux_keys (rest : List CKey) :
    ∀ (n : ℕ) (seen : List CKey),
      ((firstOccAux n rest seen).map Prod.fst).Nodup ∧
        ∀ p ∈ firstOccAux n rest seen, p.1 ∉ seen := by
  induction rest with
  | nil =>
    intro n seen
    simp [firstOccAux]
  | cons k ks ih =>
    intro n seen
    unfold firstOccAux
    by_cases hk : k ∈ seen
    · rw [if_pos hk]
      exact ih (n + 1) seen
    · rw [if_neg hk]
      obtain ⟨hnd, hnotin⟩ := ih (n + 1) (k :: seen)
      constructor
      · rw [List.map_cons, List.nodup_cons]
        refine ⟨?_, hnd⟩
        intro hc
        obtain ⟨p, hp, hpk⟩ := List.mem_map.mp hc
        exact hnotin p hp (hpk ▸ List.mem_cons_self k seen)
      · intro p hp
        rcases List.mem_cons.mp hp with rfl | hp2
        · exact hk
        · intro hc
          exact hnotin p hp2 (List.mem_cons_of_mem k hc)

theorem firstOccAux_of_nodup (rest : List CKey) :
    ∀ (n : ℕ) (seen : List CKey), rest.Nodup → (∀ k ∈ rest, k ∉ seen) →
      firstOccAux n rest seen = rest.zip (List.range' n rest.length) := by
  induction rest with
  | nil =>
    intro n seen _ _
    rfl
  | cons k ks ih =>
    intro n seen hnd hdisj
    unfold firstOccAux
    rw [if_neg (hdisj k (List.mem_cons_self k ks)), List.length_cons,
      List.range'_succ, List.zip_cons_cons]
    congr 1
    apply ih
    · exact List.Nodup.of_cons hnd
    · intro k2 hk2
      rw [List.mem_cons]
      rintro (rfl | hin)
      · exact (List.nodup_cons.mp hnd).1 hk2
      · exact hdisj k2 (List.mem_cons_of_mem k hk2) hin

theorem npUnique_mem_spec (ks : List CKey) (p : CKey × ℕ) (hp : p ∈ npUnique ks) :
    ks[p.2]? = some p.1 ∧ ∀ j, j < p.2 → ks[j]? ≠ some p.1 := by
  have hp2 : p ∈ firstOccAux 0 ks [] :=
    (List.mem_insertionSort pkeyLe).mp hp
  have hres := firstOccAux_spec ks [] [] (by simp) p hp2
  simpa using hres

theorem npUnique_keys_nodup (ks : List CKey) :
    ((npUnique ks).map Prod.fst).Nodup := by
  have hperm : List.Perm (npUnique ks) (firstOccAux 0 ks []) :=
    List.perm_insertionSort pkeyLe (firstOccAux 0 ks [])
  exact ((hperm.map Prod.fst).nodup_iff).mpr (firstOccAux_keys ks 0 []).1

theorem npUnique_keys_strict (ks : List CKey) :
    List.Pairwise ckeyLt ((npUnique ks).map Prod.fst) := by
  rw [List.pairwise_map]
  have hs : List.Pairwise pkeyLe (npUnique ks) :=
    List.sorted_insertionSort pkeyLe (firstOccAux 0 ks [])
  have hn : List.Pairwise (fun p q : CKey × ℕ => p.1 ≠ q.1) (npUnique ks) :=
    List.pairwise_map.mp (npUnique_keys_nodup ks)
  refine (hs.and hn).imp ?_
  rintro p q ⟨hle, hne⟩
  rcases hle with hlt | ⟨heq, _⟩
  · exact hlt
  · exact absurd heq hne

theorem ckeyLt_ne {a b : CKey} (h : ckeyLt a b) : a ≠ b := by
  rintro rfl
  rcases h with hlt | ⟨_, hlt⟩ <;> exact lt_irrefl _ hlt

theorem fancyIndex_bounds {l : List ℚ} :
    ∀ {idx : List ℕ} {vs : List ℚ}, fancyIndex l idx = some vs →
      ∀ i ∈ idx, i < l.length := by
  intro idx
  induction idx with
  | nil =>
    intro vs _ i hi
    simp at hi
  | cons j js ih =>
    intro vs h i hi
    unfold fancyIndex at h
    cases h0 : l[j]? <;> rw [h0] at h
    · exact absurd h (by simp)
    cases h1 : fancyIndex l js <;> rw [h1] at h
    · exact absurd h (by simp)
    rcases List.mem_cons.mp hi with rfl | hi2
    · exact (List.getElem?_eq_some_iff.mp h0).1
    · exact ih h1 i hi2

theorem fancyIndex_of_bounds (l : List ℚ) :
    ∀ (idx : List ℕ), (∀ i ∈ idx, i < l.length) →
      fancyIndex l idx = some (idx.map fun i => l.getD i 0) := by
  intro idx
  induction idx with
  | nil =>
    intro _
    rfl
  | cons j js ih =>
    intro hb
    have hj : j < l.length := hb j (List.mem_cons_self j js)
    unfold fancyIndex
    rw [List.getElem?_eq_getElem hj,
      ih (fun i hi => hb i (List.mem_cons_of_mem j hi)), List.map_cons,
      getD_of_lt l j 0 hj]

theorem fancyIndex_length {l : List ℚ} :
    ∀ {idx : List ℕ} {vs : List ℚ}, fancyIndex l idx = some vs →
      vs.length = idx.length := by
  intro idx
  induction idx with
  | nil =>
    intro vs h
    obtain rfl : [] = vs := Option.some.inj h
    rfl
  | cons j js ih =>
    intro vs h
    unfold fancyIndex at h
    cases h0 : l[j]? <;> rw [h0] at h
    · exact absurd h (by simp)
    cases h1 : fancyIndex l js <;> rw [h1] at h
    · exact absurd h (by simp)
    rename_i v vs0
    obtain rfl : v :: vs0 = vs := Option.some.inj h
    simpa using ih h1

theorem fancyIndex_drop (l : List ℚ) :
    ∀ (s : List ℚ) (n : ℕ), l.drop n = s →
      fancyIndex l (List.range' n s.length) = some s := by
  intro s
  induction s with
  | nil =>
    intro n _
    rfl
  | cons v vs ih =>
    intro n hdrop
    have h0 : l[n]? = some v := by
      have := List.getElem?_drop l n 0
      rw [hdrop] at this
      simpa using this.symm
    have h1 : l.drop (n + 1) = vs := by
      have := List.drop_drop 1 n l
      rw [hdrop] at this
      simpa using this.symm
    rw [List.length_cons, List.range'_succ]
    unfold fancyIndex
    rw [h0, ih (n + 1) h1]

theorem fancyIndex_range (l : List ℚ) :
    fancyIndex l (List.range' 0 l.length) = some l :=
  fancyIndex_drop l l 0 (List.drop_zero l)

theorem pairwise_zip_of_pairwise_left {l : List CKey} :
    ∀ {r : List ℕ}, List.Pairwise ckeyLt l → List.Pairwise pkeyLe (l.zip r) := by
  induction l with
  | nil =>
    intro r _
    simp
  | cons a l2 ih =>
    intro r h
    cases r with
    | nil => simp
    | cons n r2 =>
      rw [List.zip_cons_cons, List.pairwise_cons]
      obtain ⟨ha, h2⟩ := List.pairwise_cons.mp h
      refine ⟨?_, ih h2⟩
      rintro ⟨bk, bn⟩ hpb
      exact Or.inl (ha bk (List.of_mem_zip hpb).1)

theorem dedupPoints_inv {x y U xu yu Uu : List ℚ}
    (h : dedupPoints x y U = some (xu, yu, Uu)) :
    fancyIndex x ((npUnique (x.zip y)).map Prod.snd) = some xu ∧
    fancyIndex y ((npUnique (x.zip y)).map Prod.snd) = some yu ∧
    fancyIndex U ((npUnique (x.zip y)).map Prod.snd) = some Uu := by
  unfold dedupPoints at h
  cases h1 : fancyIndex x ((npUnique (x.zip y)).map Prod.snd) <;> rw [h1] at h
  · exact absurd h (by simp)
  cases h2 : fancyIndex y ((npUnique (x.zip y)).map Prod.snd) <;> rw [h2] at h
  · exact absurd h (by simp)
  cases h3 : fancyIndex U ((npUnique (x.zip y)).map Prod.snd) <;> rw [h3] at h
  · exact absurd h (by simp)
  rename_i xv yv Uv
  have hp : (xv, yv, Uv) = (xu, yu, Uu) := Option.some.inj h
  rw [Prod.mk.injEq, Prod.mk.injEq] at hp
  obtain ⟨e1, e2, e3⟩ := hp
  exact ⟨by rw [e1], by rw [e2], by rw [e3]⟩

theorem dedup_zip_eq_keys {x y xu yu : List ℚ}
    (hx : fancyIndex x ((npUnique (x.zip y)).map Prod.snd) = some xu)
    (hy : fancyIndex y ((npUnique (x.zip y)).map Prod.snd) = some yu) :
    xu.zip yu = (npUnique (x.zip y)).map Prod.fst := by
  have hbx := fancyIndex_bounds hx
  have hby := fancyIndex_bounds hy
  have hxu : xu = (npUnique (x.zip y)).map fun p => x.getD p.2 0 := by
    have := fancyIndex_of_bounds x _ hbx
    rw [this] at hx
    have h2 := Option.some.inj hx
    rw [← h2, List.map_map]
    rfl
  have hyu : yu = (npUnique (x.zip y)).map fun p => y.getD p.2 0 := by
    have := fancyIndex_of_bounds y _ hby
    rw [this] at hy
    have h2 := Option.some.inj hy
    rw [← h2, List.map_map]
    rfl
  rw [hxu, hyu, List.zip_map']
  apply List.map_congr_left
  intro p hp
  obtain ⟨hget, _⟩ := npUnique_mem_spec (x.zip y) p hp
  obtain ⟨hlt, heq⟩ := List.getElem?_eq_some_iff.mp hget
  have hltx : p.2 < x.length := lt_of_lt_of_le hlt (by rw [List.length_zip]; omega)
  have hlty : p.2 < y.length := lt_of_lt_of_le hlt (by rw [List.length_zip]; omega)
  rw [getD_of_lt x p.2 0 hltx, getD_of_lt y p.2 0 hlty]
  rw [List.getElem_zip] at heq
  exact heq

/-- Claim C8: the point deduplication step is idempotent: applying the
unique-coordinate reduction (complex key `x + i*y` with associated values)
to its own output returns that output unchanged. -/
theorem C8_dedup_idempotent (x y U xu yu Uu : List ℚ)
    (h : dedupPoints x y U = some (xu, yu, Uu)) :
    dedupPoints xu yu Uu = some (xu, yu, Uu) := by
  obtain ⟨hx, hy, hU⟩ := dedupPoints_inv h
  have hkeys : xu.zip yu = (npUnique (x.zip y)).map Prod.fst :=
    dedup_zip_eq_keys hx hy
  have hstrict : List.Pairwise ckeyLt (xu.zip yu) := by
    rw [hkeys]
    exact npUnique_keys_strict (x.zip y)
  have hnodup : (xu.zip yu).Nodup := hstrict.imp fun h2 => ckeyLt_ne h2
  have hxlen : xu.length = (npUnique (x.zip y)).length := by
    rw [fancyIndex_length hx, List.length_map]
  have hylen : yu.length = (npUnique (x.zip y)).length := by
    rw [fancyIndex_length hy, List.length_map]
  have hUlen : Uu.length = (npUnique (x.zip y)).length := by
    rw [fancyIndex_length hU, List.length_map]
  have hziplen : (xu.zip yu).length = xu.length := by
    rw [List.length_zip]
    omega
  have hfo : firstOccAux 0 (xu.zip yu) [] =
      (xu.zip yu).zip (List.range' 0 (xu.zip yu).length) :=
    firstOccAux_of_nodup (xu.zip yu) 0 [] hnodup
      (fun k _ => List.not_mem_nil k)
  have hsorted : List.Pairwise pkeyLe
      ((xu.zip yu).zip (List.range' 0 (xu.zip yu).length)) :=
    pairwise_zip_of_pairwise_left hstrict
  have hnu : npUnique (xu.zip yu) =
      (xu.zip yu).zip (List.range' 0 (xu.zip yu).length) := by
    unfold npUnique
    rw [hfo]
    exact List.Sorted.insertionSort_eq hsorted
  have hidx : (npUnique (xu.zip yu)).map Prod.snd =
      List.range' 0 (xu.zip yu).length := by
    rw [hnu]
    exact List.map_snd_zip _ _ (by rw [List.length_range'])
  have hxy2 : xu.length = yu.length := by omega
  have hyU2 : yu.length = Uu.length := by omega
  unfold dedupPoints
  rw [hidx, hziplen, fancyIndex_range xu, hxy2, fancyIndex_range yu, hyU2,
    fancyIndex_range Uu]

/-- Witness for C8 at the concrete input ((1,0), (0,0), (1,0)) with values
(5, 6, 7): the first pass keeps one copy of the duplicate point; the
second pass is the identity. -/
theorem C8_dedup_idempotent_witness :
    dedupPoints [0, 1] [0, 0] [6, 5] = some ([0, 1], [0, 0], [6, 5]) :=
  C8_dedup_idempotent [1, 0, 1] [0, 0, 0] [5, 6, 7] [0, 1] [0, 0] [6, 5]
    (by with_unfolding_all rfl)

/-- Claim C10: the deduplicated coordinates come out sorted by the complex
key (increasing x, ties broken by increasing y), not in first-seen input
order, and each retained value sits at the first occurrence of its
coordinate in the flattened input arrays. -/
theorem C10_dedup_sorted_first_occ (x y U xu yu Uu : List ℚ)
    (h : dedupPoints x y U = some (xu, yu, Uu)) :
    List.Pairwise ckeyLt (xu.zip yu) ∧
    ∀ j, j < Uu.length → ∃ i,
      (x.zip y)[i]? = some (xu.getD j 0, yu.getD j 0) ∧
      (∀ i2, i2 < i → (x.zip y)[i2]? ≠ some (xu.getD j 0, yu.getD j 0)) ∧
      Uu.getD j 0 = U.getD i 0 := by
  obtain ⟨hx, hy, hU⟩ := dedupPoints_inv h
  have hkeys : xu.zip yu = (npUnique (x.zip y)).map Prod.fst :=
    dedup_zip_eq_keys hx hy
  refine ⟨by rw [hkeys]; exact npUnique_keys_strict (x.zip y), ?_⟩
  intro j hj
  have hUlen : Uu.length = (npUnique (x.zip y)).length := by
    rw [fancyIndex_length hU, List.length_map]
  have hxlen : xu.length = (npUnique (x.zip y)).length := by
    rw [fancyIndex_length hx, List.length_map]
  have hylen : yu.length = (npUnique (x.zip y)).length := by
    rw [fancyIndex_length hy, List.length_map]
  have hju : j < (npUnique (x.zip y)).length := by omega
  have hjx : j < xu.length := by omega
  have hjy : j < yu.length := by omega
  have hjz : j < (xu.zip yu).length := by
    rw [List.length_zip]
    omega
  have hpmem : (npUnique (x.zip y)).get ⟨j, hju⟩ ∈ npUnique (x.zip y) :=
    List.get_mem (npUnique (x.zip y)) j hju
  obtain ⟨hget, hfirst⟩ := npUnique_mem_spec (x.zip y) _ hpmem
  have hkeyj : (xu.getD j 0, yu.getD j 0) =
      ((npUnique (x.zip y)).get ⟨j, hju⟩).1 := by
    have h2 : (xu.zip yu)[j]? = (List.map Prod.fst (npUnique (x.zip y)))[j]? := by
      rw [hkeys]
    rw [List.getElem?_eq_getElem hjz, List.getElem?_map,
      List.getElem?_eq_getElem hju] at h2
    have h3 := Option.some.inj (by simpa using h2)
    rw [getD_of_lt xu j 0 hjx, getD_of_lt yu j 0 hjy, List.get_eq_getElem]
    exact h3
  refine ⟨((npUnique (x.zip y)).get ⟨j, hju⟩).2, ?_, ?_, ?_⟩
  · rw [hkeyj]
    exact hget
  · intro i2 hi2
    rw [hkeyj]
    exact hfirst i2 hi2
  · have hbU := fancyIndex_bounds hU
    have hUform : Uu = (npUnique (x.zip y)).map fun p => U.getD p.2 0 := by
      rw [fancyIndex_of_bounds U _ hbU] at hU
      have h2 := Option.some.inj hU
      rw [← h2, List.map_map]
      rfl
    have h2 : Uu[j]? =
        (List.map (fun p => U.getD p.2 0) (npUnique (x.zip y)))[j]? := by
      rw [hUform]
    rw [List.getElem?_eq_getElem hj, List.getElem?_map,
      List.getElem?_eq_getElem hju] at h2
    have h3 := Option.some.inj (by simpa using h2)
    rw [getD_of_lt Uu j 0 hj, h3, List.getD_eq_getElem?_getD,
      List.get_eq_getElem]

/-- Witness for C10 at the input ((2,0), (1,0)) with values (7, 8): the
output is reordered to increasing complex key ((1,0) before (2,0)), with
each value following its coordinate. -/
theorem C10_dedup_sorted_first_occ_witness :
    List.Pairwise ckeyLt (([1, 2] : List ℚ).zip ([0, 0] : List ℚ)) ∧
    ∀ j, j < ([8, 7] : List ℚ).length → ∃ i,
      (([2, 1] : List ℚ).zip ([0, 0] : List ℚ))[i]? =
        some (([1, 2] : List ℚ).getD j 0, ([0, 0] : List ℚ).getD j 0) ∧
      (∀ i2, i2 < i → (([2, 1] : List ℚ).zip ([0, 0] : List ℚ))[i2]? ≠
        some (([1, 2] : List ℚ).getD j 0, ([0, 0] : List ℚ).getD j 0)) ∧
      ([8, 7] : List ℚ).getD j 0 = ([7, 8] : List ℚ).getD i 0 :=
  C10_dedup_sorted_first_occ [2, 1] [0, 0] [7, 8] [1, 2] [0, 0] [8, 7]
    (by with_unfolding_all rfl)

end BEMHelper
